import Mathlib

/-!
Shallow embedding of the `lookup-table-registry` Rust client library
(`src/libraries/rust/src/client.rs`, `lib.rs`, `common.rs`) and proofs of
the specification claims about it.

Addresses (`Pubkey`) are modelled as natural numbers (opaque identifiers
compared by equality).  The `HashSet` working set of `find_addresses` is
modelled as a `Finset`; a second, order-carrying model over lists is used
to show the result is independent of the hash set's enumeration order.
-/

/-- An address (Solana `Pubkey`): an opaque identifier compared by equality. -/
abbrev Address := Nat

/-- Model of `solana_sdk::instruction::AccountMeta`: only the `pubkey`
field is read by the client code under study. -/
structure AccountMeta where
  pubkey : Address
deriving DecidableEq, Repr

/-- Model of `solana_sdk::instruction::Instruction`: a program id plus the
referenced account metas (the `data` field is never read by `find_addresses`). -/
structure Instruction where
  program_id : Address
  accounts : List AccountMeta
deriving DecidableEq, Repr

/-- Model of `Entry` (lib.rs): one decoded lookup table.  `addresses` is an
ordered, duplicate-preserving list, exactly as the Rust `Vec<Pubkey>`. -/
structure Entry where
  discriminator : Nat
  lookup_address : Address
  addresses : List Address
deriving DecidableEq, Repr

/-- Model of `Registry` (lib.rs): the per-authority aggregate of decoded
active table entries. -/
structure Registry where
  authority : Address
  version : Nat
  tables : List Entry
deriving DecidableEq, Repr

/-! ### Registry fetch (`Registry::fetch`, common.rs / lib.rs)

The external collaborators (RPC account reader, anchor / lookup-table
decoders, PDA derivation) are modelled as an environment of functions, so
the fetch logic itself is quantified over every possible response of the
account reader. -/

/-- Raw account data, opaque to the fetch logic (only the decoders in the
environment look inside). -/
abbrev AccountData := Nat

/-- Model of a boxed `AccountReaderError`: the fetch logic only queries
`is_account_not_found`. -/
structure ReaderError where
  is_account_not_found : Bool
deriving DecidableEq, Repr

/-- Model of a registry entry inside the on-chain `RegistryAccount`
(`discriminator` and `table` fields, as read by `Registry::fetch`). -/
structure RegistryEntry where
  discriminator : Nat
  table : Address
deriving DecidableEq, Repr

/-- Model of the decoded on-chain `RegistryAccount`. -/
structure RegistryAccount where
  version : Nat
  tables : List RegistryEntry
deriving DecidableEq, Repr

/-- Model of `LookupRegistryError` (common.rs), restricted to the variants
`Registry::fetch` can produce. -/
inductive LookupRegistryError where
  | RegistryNotFound (addr : Address)
  | AccountReadError (e : ReaderError)
  | AnchorError
deriving DecidableEq, Repr

/-- The external environment of `Registry::fetch`: the account reader
(`get_account`, `get_multiple_accounts`), the two decoders
(`RegistryAccount::try_deserialize`, `AddressLookupTable::deserialize`,
the latter giving the table's address list), and PDA derivation
(`Pubkey::find_program_address` with the registry program id). -/
structure FetchEnv where
  get_account : Address → Except ReaderError AccountData
  get_multiple_accounts : List Address → Except ReaderError (List (Option AccountData))
  decodeRegistry : AccountData → Except Unit RegistryAccount
  decodeTable : AccountData → Except Unit (List Address)
  deriveRegistryAddress : Address → Address

/-- The `filter_map` over the zipped batch-fetch results and active
registry entries (common.rs lines 51-67): a missing account or a failing
table decode drops the entry silently. -/
def buildTables (env : FetchEnv) (accounts : List (Option AccountData))
    (active : List RegistryEntry) : List Entry :=
  (accounts.zip active).filterMap (fun p =>
    match p.1 with
    | none => none
    | some accountData =>
        match env.decodeTable accountData with
        | .error _ => none
        | .ok addrs => some ⟨p.2.discriminator, p.2.table, addrs⟩)

/-- Model of `Registry::fetch` (common.rs lines 21-74, identical logic in
lib.rs lines 23-75).  The result is wrapped in `Option`: `none` models a
panic, which the Rust code incurs through the `.unwrap()` on
`get_multiple_accounts`; every other outcome is `some` of the explicit
`Result` value the Rust function returns. -/
def Registry.fetch (env : FetchEnv) (authority : Address) :
    Option (Except LookupRegistryError Registry) :=
  let registry_address := env.deriveRegistryAddress authority
  match env.get_account registry_address with
  | .error e =>
      if e.is_account_not_found then
        some (.error (.RegistryNotFound registry_address))
      else
        some (.error (.AccountReadError e))
  | .ok data =>
      match env.decodeRegistry data with
      | .error _ => some (.error .AnchorError)
      | .ok registry =>
          let active := registry.tables.filter (fun e => 1 < e.discriminator)
          let pubkeys := active.map RegistryEntry.table
          match env.get_multiple_accounts pubkeys with
          | .error _ => none
          | .ok accounts =>
              some (.ok ⟨authority, registry.version, buildTables env accounts active⟩)

/-! ### Registry cache (`LookupRegistryClient`, client.rs)

The endorphin TTL hash map behind the `RwLock` is modelled as a function
from authority to an optional entry carrying the stored registry, its
insertion time and its TTL; expiry is evaluated lazily at read time. -/

/-- One cache slot: the stored registry, the insertion time (seconds) and
the TTL (seconds) passed at insertion. -/
structure CacheEntry where
  registry : Registry
  insertedAt : Nat
  ttl : Nat
deriving DecidableEq, Repr

/-- The registry cache contents: authority to optional entry. -/
abbrev Cache := Address → Option CacheEntry

/-- Model of `HashMap::insert` with a TTL (endorphin): replace the
authority's slot with a fresh entry. -/
def cacheInsert (cache : Cache) (authority : Address) (registry : Registry)
    (now ttl : Nat) : Cache :=
  fun a => if a = authority then some ⟨registry, now, ttl⟩ else cache a

/-- Model of the TTL map's `get`: an entry is treated as absent once its
TTL has elapsed since insertion (lazy expiry at read time). -/
def cacheGet (cache : Cache) (now : Nat) (authority : Address) : Option Registry :=
  match cache authority with
  | none => none
  | some entry => if now < entry.insertedAt + entry.ttl then some entry.registry else none

/-- The TTL constant used by `update_registries`: `Duration::from_secs(3600)`. -/
def cacheTTL : Nat := 3600

/-- Model of `LookupRegistryClient::update_registries` (client.rs lines
32-43).  The fetch outcome for each authority is supplied by `fetchFn` (the
awaited `Registry::fetch`); `now` is the insertion timestamp.  Returns the
updated cache and the list of authorities whose fetch failed, in processing
order. -/
def update_registries (fetchFn : Address → Except LookupRegistryError Registry)
    (now : Nat) : Cache → List Address → Cache × List Address
  | cache, [] => (cache, [])
  | cache, authority :: rest =>
      match fetchFn authority with
      | .error _ =>
          let r := update_registries fetchFn now cache rest
          (r.1, authority :: r.2)
      | .ok registry =>
          update_registries fetchFn now (cacheInsert cache authority registry now cacheTTL) rest

/-! ### Address reduction (`find_addresses`, client.rs lines 47-110) -/

/-- Result of `find_addresses` (the `FindAddressesResult` struct).  The
field `matched` models the Rust field `matches`, whose name is a reserved
word in Lean. -/
structure FindAddressesResult where
  matched : List Address
  distinct : Nat
  unmatched : Nat
deriving DecidableEq, Repr

/-- The initial working set: insert every instruction's `program_id` and
every referenced account's `pubkey` into one hash set (client.rs lines
52-58). -/
def collectAccounts (instructions : List Instruction) : Finset Address :=
  instructions.foldl
    (fun s ix => ix.accounts.foldl (fun s' m => insert m.pubkey s') (insert ix.program_id s))
    ∅

/-- The manual intersection of client.rs lines 74-90: if the table's raw
address list is shorter than the working set, iterate the table's list and
keep the members of the working set; otherwise iterate the working set and
keep the members of the table's list.  Either way the result is a set. -/
def tableIntersection (table : Entry) (accounts : Finset Address) : Finset Address :=
  if table.addresses.length < accounts.card then
    (table.addresses.filter (fun a => a ∈ accounts)).toFinset
  else
    accounts.filter (fun a => a ∈ table.addresses)

/-- One table step of `find_addresses` (client.rs lines 70-100): compute
the intersection with the current working set; if it has more than one
member, push the table's `lookup_address` onto the matches and remove every
intersecting address from the working set. -/
def processTable (accounts : Finset Address) (matched : List Address) (table : Entry) :
    Finset Address × List Address :=
  let intersection := tableIntersection table accounts
  if 1 < intersection.card then
    (accounts \ intersection, matched ++ [table.lookup_address])
  else
    (accounts, matched)

/-- One authority step of `find_addresses` (client.rs lines 63-101): look
the authority up in the cache; on a miss contribute nothing, otherwise fold
the registry's tables in stored order over the current state. -/
def processAuthority (cache : Cache) (now : Nat)
    (st : Finset Address × List Address) (authority : Address) :
    Finset Address × List Address :=
  match cacheGet cache now authority with
  | none => st
  | some registry => registry.tables.foldl (fun st t => processTable st.1 st.2 t) st

/-- Model of `LookupRegistryClient::find_addresses` (client.rs lines
47-110).  `cache`/`now` stand for the cache contents observed through the
read lock during the call. -/
def find_addresses (cache : Cache) (now : Nat)
    (instructions : List Instruction) (authorities : List Address) : FindAddressesResult :=
  let accounts := collectAccounts instructions
  let distinct := accounts.card
  let final := authorities.foldl (processAuthority cache now) (accounts, [])
  ⟨final.2, distinct, final.1.card⟩

/-! ### Order-carrying model of the working set

In the Rust code the working set is a `HashSet`, whose enumeration order
(relevant in the second intersection branch, which iterates the working
set) is an implementation artifact.  `findAddressesOrd` carries the working
set as an explicit duplicate-free list standing for one possible
enumeration order of that hash set; the refinement lemmas below show the
observable result coincides with the order-free `find_addresses`. -/

/-- The manual intersection, iterating a concrete enumeration `accountsList`
of the working set in the second branch. -/
def interOrd (table : Entry) (accountsList : List Address) : Finset Address :=
  if table.addresses.length < accountsList.length then
    (table.addresses.filter (fun a => a ∈ accountsList)).toFinset
  else
    (accountsList.filter (fun a => a ∈ table.addresses)).toFinset

/-- One table step over an enumerated working set. -/
def processTableOrd (accountsList matched : List Address) (table : Entry) :
    List Address × List Address :=
  let intersection := interOrd table accountsList
  if 1 < intersection.card then
    (accountsList.filter (fun a => a ∉ intersection), matched ++ [table.lookup_address])
  else
    (accountsList, matched)

/-- One authority step over an enumerated working set. -/
def processAuthorityOrd (cache : Cache) (now : Nat)
    (st : List Address × List Address) (authority : Address) :
    List Address × List Address :=
  match cacheGet cache now authority with
  | none => st
  | some registry => registry.tables.foldl (fun st t => processTableOrd st.1 st.2 t) st

/-- `find_addresses` with the initial working set given as an explicit
enumeration (a duplicate-free list listing the hash set's elements in some
order). -/
def findAddressesOrd (cache : Cache) (now : Nat)
    (accountsList : List Address) (authorities : List Address) : FindAddressesResult :=
  let distinct := accountsList.length
  let final := authorities.foldl (processAuthorityOrd cache now) (accountsList, [])
  ⟨final.2, distinct, final.1.length⟩

/-- Simulation relation between an enumerated working-set state and the
order-free state: the list is duplicate-free, enumerates exactly the
finset, and the matched lists agree. -/
def simR (st : List Address × List Address) (fst : Finset Address × List Address) : Prop :=
  st.1.Nodup ∧ st.1.toFinset = fst.1 ∧ st.2 = fst.2

/-- True exactly when the fetch result is `Ok` (the `let Ok(registry) = …
else` distinction in `update_registries`). -/
def fetchOk (e : Except LookupRegistryError Registry) : Bool :=
  match e with
  | .ok _ => true
  | .error _ => false

/-! ### Concrete fixtures

Closed values used by the witness theorems to evaluate the model on
concrete inputs. -/

/-- A concrete registry: authority 0, one active table with lookup address
100 holding member addresses 1, 2, 3. -/
def regA : Registry := ⟨0, 1, [⟨5, 100, [1, 2, 3]⟩]⟩

/-- A concrete fetch outcome function: authority 0 succeeds with `regA`,
every other authority fails with `RegistryNotFound`. -/
def fetchFixture : Address → Except LookupRegistryError Registry :=
  fun a => if a = 0 then Except.ok regA else Except.error (.RegistryNotFound a)

/-- A concrete cache: authority 0 holds `regA`, inserted at time 0 with the
standard TTL. -/
def cacheFixture : Cache :=
  fun a => if a = 0 then some ⟨regA, 0, cacheTTL⟩ else none

/-- A concrete instruction batch referencing program 1 and account 2. -/
def instrsFixture : List Instruction := [⟨1, [⟨2⟩]⟩]

/-- A fetch environment in which the registry account reads and decodes
fine but the batch `get_multiple_accounts` fails with a transport error. -/
def envPanic : FetchEnv :=
  ⟨fun _ => .ok 0,
   fun _ => .error ⟨false⟩,
   fun _ => .ok ⟨1, [⟨2, 7⟩]⟩,
   fun _ => .ok [],
   fun a => a⟩

/-- A fetch environment whose registry holds one reserved entry
(discriminator 0), one active entry whose table decodes to addresses 4 and
5, and one active entry whose backing account is missing. -/
def envMixed : FetchEnv :=
  ⟨fun _ => .ok 0,
   fun _ => .ok [some 1, none],
   fun _ => .ok ⟨1, [⟨0, 10⟩, ⟨2, 11⟩, ⟨3, 12⟩]⟩,
   fun _ => .ok [4, 5],
   fun a => a⟩

/-! ### Helper lemmas -/

lemma mem_tableIntersection {table : Entry} {accounts : Finset Address} {a : Address} :
    a ∈ tableIntersection table accounts ↔ a ∈ accounts ∧ a ∈ table.addresses := by
  unfold tableIntersection
  split <;> simp [List.mem_filter, Finset.mem_filter] <;> tauto

lemma tableIntersection_eq_inter (table : Entry) (accounts : Finset Address) :
    tableIntersection table accounts = accounts ∩ table.addresses.toFinset := by
  ext a
  simp [mem_tableIntersection]

lemma tableIntersection_subset (table : Entry) (accounts : Finset Address) :
    tableIntersection table accounts ⊆ accounts := by
  intro a ha
  exact (mem_tableIntersection.mp ha).1

lemma mem_interOrd {table : Entry} {l : List Address} {a : Address} :
    a ∈ interOrd table l ↔ a ∈ l ∧ a ∈ table.addresses := by
  unfold interOrd
  split <;> simp [List.mem_filter] <;> tauto

lemma interOrd_eq (table : Entry) (l : List Address) :
    interOrd table l = tableIntersection table l.toFinset := by
  ext a
  simp [mem_interOrd, mem_tableIntersection]

lemma processTableOrd_sim {st : List Address × List Address}
    {fst : Finset Address × List Address} (table : Entry) (h : simR st fst) :
    simR (processTableOrd st.1 st.2 table) (processTable fst.1 fst.2 table) := by
  obtain ⟨l, m⟩ := st
  obtain ⟨s, m'⟩ := fst
  obtain ⟨hnd, hset, hm⟩ := h
  subst hset
  subst hm
  simp only [processTableOrd, processTable, interOrd_eq]
  split_ifs with hc
  · refine ⟨hnd.filter _, ?_, rfl⟩
    ext a
    simp [List.mem_filter]
  · exact ⟨hnd, rfl, rfl⟩

lemma foldTablesOrd_sim {st : List Address × List Address}
    {fst : Finset Address × List Address} (tables : List Entry) (h : simR st fst) :
    simR (tables.foldl (fun st t => processTableOrd st.1 st.2 t) st)
      (tables.foldl (fun st t => processTable st.1 st.2 t) fst) := by
  induction tables generalizing st fst with
  | nil => exact h
  | cons t ts ih =>
      simp only [List.foldl_cons]
      exact ih (processTableOrd_sim t h)

lemma processAuthorityOrd_sim {st : List Address × List Address}
    {fst : Finset Address × List Address} (cache : Cache) (now : Nat)
    (authority : Address) (h : simR st fst) :
    simR (processAuthorityOrd cache now st authority)
      (processAuthority cache now fst authority) := by
  unfold processAuthorityOrd processAuthority
  match cacheGet cache now authority with
  | none => exact h
  | some registry => exact foldTablesOrd_sim registry.tables h

lemma foldAuthoritiesOrd_sim {st : List Address × List Address}
    {fst : Finset Address × List Address} (cache : Cache) (now : Nat)
    (authorities : List Address) (h : simR st fst) :
    simR (authorities.foldl (processAuthorityOrd cache now) st)
      (authorities.foldl (processAuthority cache now) fst) := by
  induction authorities generalizing st fst with
  | nil => exact h
  | cons a rest ih =>
      simp only [List.foldl_cons]
      exact ih (processAuthorityOrd_sim cache now a h)

lemma findAddressesOrd_eq (cache : Cache) (now : Nat)
    (instructions : List Instruction) (authorities : List Address)
    (l : List Address) (hnd : l.Nodup) (he : l.toFinset = collectAccounts instructions) :
    findAddressesOrd cache now l authorities
      = find_addresses cache now instructions authorities := by
  have hsim : simR (l, ([] : List Address)) (collectAccounts instructions, []) :=
    ⟨hnd, he, rfl⟩
  obtain ⟨h1, h2, h3⟩ := foldAuthoritiesOrd_sim cache now authorities hsim
  unfold findAddressesOrd find_addresses
  simp only [FindAddressesResult.mk.injEq]
  refine ⟨h3, ?_, ?_⟩
  · rw [← he, List.toFinset_card_of_nodup hnd]
  · rw [← h2, List.toFinset_card_of_nodup h1]

lemma processTable_fst_subset (s : Finset Address) (m : List Address) (t : Entry) :
    (processTable s m t).1 ⊆ s := by
  simp only [processTable]
  split_ifs with hc
  · exact Finset.sdiff_subset
  · exact Finset.Subset.refl s

lemma processTable_measure (s : Finset Address) (m : List Address) (t : Entry) :
    (processTable s m t).1.card + 2 * (processTable s m t).2.length
      ≤ s.card + 2 * m.length := by
  have hsub := tableIntersection_subset t s
  have hle := Finset.card_le_card hsub
  simp only [processTable]
  split_ifs with hc
  · simp only [List.length_append, List.length_cons, List.length_nil]
    rw [Finset.card_sdiff hsub]
    omega
  · exact le_refl _

lemma foldTables_measure (tables : List Entry) (st : Finset Address × List Address) :
    (tables.foldl (fun st t => processTable st.1 st.2 t) st).1.card
      + 2 * (tables.foldl (fun st t => processTable st.1 st.2 t) st).2.length
      ≤ st.1.card + 2 * st.2.length := by
  induction tables generalizing st with
  | nil => exact le_refl _
  | cons t ts ih =>
      simp only [List.foldl_cons]
      exact le_trans (ih (processTable st.1 st.2 t)) (processTable_measure st.1 st.2 t)

lemma foldTables_fst_subset (tables : List Entry) (st : Finset Address × List Address) :
    (tables.foldl (fun st t => processTable st.1 st.2 t) st).1 ⊆ st.1 := by
  induction tables generalizing st with
  | nil => exact Finset.Subset.refl _
  | cons t ts ih =>
      simp only [List.foldl_cons]
      exact Finset.Subset.trans (ih (processTable st.1 st.2 t)) (processTable_fst_subset st.1 st.2 t)

lemma processAuthority_measure (cache : Cache) (now : Nat)
    (st : Finset Address × List Address) (a : Address) :
    (processAuthority cache now st a).1.card + 2 * (processAuthority cache now st a).2.length
      ≤ st.1.card + 2 * st.2.length := by
  unfold processAuthority
  match cacheGet cache now a with
  | none => exact le_refl _
  | some registry => exact foldTables_measure registry.tables st

lemma processAuthority_fst_subset (cache : Cache) (now : Nat)
    (st : Finset Address × List Address) (a : Address) :
    (processAuthority cache now st a).1 ⊆ st.1 := by
  unfold processAuthority
  match cacheGet cache now a with
  | none => exact Finset.Subset.refl _
  | some registry => exact foldTables_fst_subset registry.tables st

lemma foldAuthorities_measure (cache : Cache) (now : Nat)
    (authorities : List Address) (st : Finset Address × List Address) :
    (authorities.foldl (processAuthority cache now) st).1.card
      + 2 * (authorities.foldl (processAuthority cache now) st).2.length
      ≤ st.1.card + 2 * st.2.length := by
  induction authorities generalizing st with
  | nil => exact le_refl _
  | cons a rest ih =>
      simp only [List.foldl_cons]
      exact le_trans (ih (processAuthority cache now st a))
        (processAuthority_measure cache now st a)

lemma processAuthority_of_miss (cache : Cache) (now : Nat)
    (st : Finset Address × List Address) (a : Address)
    (h : cacheGet cache now a = none) :
    processAuthority cache now st a = st := by
  unfold processAuthority
  rw [h]

lemma foldAuthorities_id (cache : Cache) (now : Nat)
    (authorities : List Address) (st : Finset Address × List Address)
    (h : ∀ a ∈ authorities, cacheGet cache now a = none) :
    authorities.foldl (processAuthority cache now) st = st := by
  induction authorities generalizing st with
  | nil => rfl
  | cons a rest ih =>
      simp only [List.foldl_cons]
      rw [processAuthority_of_miss cache now st a (h a (List.mem_cons_self a rest))]
      exact ih st (fun b hb => h b (List.mem_cons_of_mem a hb))

lemma mem_foldl_insert_metas (l : List AccountMeta) (s : Finset Address) (a : Address) :
    a ∈ l.foldl (fun s' m => insert m.pubkey s') s
      ↔ a ∈ s ∨ ∃ m ∈ l, a = m.pubkey := by
  induction l generalizing s with
  | nil => simp
  | cons m ms ih =>
      simp only [List.foldl_cons, ih, Finset.mem_insert, List.mem_cons]
      constructor
      · rintro (((h | h) | ⟨m', hm', h⟩))
        · exact Or.inr ⟨m, Or.inl rfl, h⟩
        · exact Or.inl h
        · exact Or.inr ⟨m', Or.inr hm', h⟩
      · rintro (h | ⟨m', (hm' | hm'), h⟩)
        · exact Or.inl (Or.inr h)
        · exact Or.inl (Or.inl (hm' ▸ h))
        · exact Or.inr ⟨m', hm', h⟩

lemma mem_collectAccounts_aux (instructions : List Instruction) (s : Finset Address) (a : Address) :
    a ∈ instructions.foldl
        (fun s ix => ix.accounts.foldl (fun s' m => insert m.pubkey s') (insert ix.program_id s)) s
      ↔ a ∈ s ∨ ∃ ix ∈ instructions,
          a = ix.program_id ∨ ∃ meta ∈ ix.accounts, a = meta.pubkey := by
  induction instructions generalizing s with
  | nil => simp
  | cons ix rest ih =>
      simp only [List.foldl_cons, ih, mem_foldl_insert_metas, Finset.mem_insert, List.mem_cons]
      constructor
      · rintro (((h | h) | ⟨m, hm, h⟩) | ⟨ix', hix', h⟩)
        · exact Or.inr ⟨ix, Or.inl rfl, Or.inl h⟩
        · exact Or.inl h
        · exact Or.inr ⟨ix, Or.inl rfl, Or.inr ⟨m, hm, h⟩⟩
        · exact Or.inr ⟨ix', Or.inr hix', h⟩
      · rintro (h | ⟨ix', (hix' | hix'), h⟩)
        · exact Or.inl (Or.inl (Or.inr h))
        · subst hix'
          rcases h with h | ⟨m, hm, h⟩
          · exact Or.inl (Or.inl (Or.inl h))
          · exact Or.inl (Or.inr ⟨m, hm, h⟩)
        · exact Or.inr ⟨ix', hix', h⟩

lemma mem_collectAccounts (instructions : List Instruction) (a : Address) :
    a ∈ collectAccounts instructions
      ↔ ∃ ix ∈ instructions,
          a = ix.program_id ∨ ∃ meta ∈ ix.accounts, a = meta.pubkey := by
  unfold collectAccounts
  rw [mem_collectAccounts_aux]
  simp

lemma update_registries_errors (fetchFn : Address → Except LookupRegistryError Registry)
    (now : Nat) (cache : Cache) (authorities : List Address) :
    (update_registries fetchFn now cache authorities).2
      = authorities.filter (fun a => !fetchOk (fetchFn a)) := by
  induction authorities generalizing cache with
  | nil => rfl
  | cons a rest ih =>
      cases hf : fetchFn a with
      | error e => simp [update_registries, hf, List.filter_cons, fetchOk, ih]
      | ok reg => simp [update_registries, hf, List.filter_cons, fetchOk, ih]

lemma update_registries_fst_of_failed (fetchFn : Address → Except LookupRegistryError Registry)
    (now : Nat) (cache : Cache) (authorities : List Address) (a : Address)
    (h : fetchOk (fetchFn a) = false) :
    (update_registries fetchFn now cache authorities).1 a = cache a := by
  induction authorities generalizing cache with
  | nil => rfl
  | cons b rest ih =>
      cases hf : fetchFn b with
      | error e =>
          simp only [update_registries, hf]
          exact ih cache
      | ok reg =>
          simp only [update_registries, hf]
          rw [ih (cacheInsert cache b reg now cacheTTL)]
          have hab : a ≠ b := by
            intro he
            rw [he, hf] at h
            simp [fetchOk] at h
          simp [cacheInsert, hab]

lemma update_registries_fst_of_not_mem (fetchFn : Address → Except LookupRegistryError Registry)
    (now : Nat) (cache : Cache) (authorities : List Address) (a : Address)
    (h : a ∉ authorities) :
    (update_registries fetchFn now cache authorities).1 a = cache a := by
  revert h
  induction authorities generalizing cache with
  | nil => intro h; rfl
  | cons b rest ih =>
      intro h
      have hab : a ≠ b := fun he => h (he ▸ List.mem_cons_self b rest)
      have hrest : a ∉ rest := fun hr => h (List.mem_cons_of_mem b hr)
      cases hf : fetchFn b with
      | error e =>
          simp only [update_registries, hf]
          exact ih cache hrest
      | ok reg =>
          simp only [update_registries, hf]
          rw [ih (cacheInsert cache b reg now cacheTTL) hrest]
          simp [cacheInsert, hab]

lemma update_registries_fst_of_ok (fetchFn : Address → Except LookupRegistryError Registry)
    (now : Nat) (cache : Cache) (authorities : List Address) (a : Address) (reg : Registry)
    (ha : a ∈ authorities) (h : fetchFn a = Except.ok reg) :
    (update_registries fetchFn now cache authorities).1 a
      = some ⟨reg, now, cacheTTL⟩ := by
  revert ha
  induction authorities generalizing cache with
  | nil => intro ha; cases ha
  | cons b rest ih =>
      intro ha
      by_cases hmem : a ∈ rest
      · cases hf : fetchFn b with
        | error e =>
            simp only [update_registries, hf]
            exact ih cache hmem
        | ok r =>
            simp only [update_registries, hf]
            exact ih (cacheInsert cache b r now cacheTTL) hmem
      · have hab : a = b := by
          rcases List.mem_cons.mp ha with h1 | h1
          · exact h1
          · exact absurd h1 hmem
        subst hab
        simp only [update_registries, h]
        rw [update_registries_fst_of_not_mem fetchFn now (cacheInsert cache a reg now cacheTTL) rest a hmem]
        simp [cacheInsert]

lemma mem_buildTables (env : FetchEnv) (accounts : List (Option AccountData))
    (active : List RegistryEntry) (t : Entry) (ht : t ∈ buildTables env accounts active) :
    ∃ e ∈ active, t.discriminator = e.discriminator ∧ t.lookup_address = e.table := by
  unfold buildTables at ht
  rw [List.mem_filterMap] at ht
  obtain ⟨p, hp, hfp⟩ := ht
  obtain ⟨acc, e⟩ := p
  have hea : e ∈ active := (List.of_mem_zip hp).2
  cases acc with
  | none => simp at hfp
  | some d =>
      dsimp only at hfp
      cases hdt : env.decodeTable d with
      | error u => rw [hdt] at hfp; simp at hfp
      | ok addrs =>
          rw [hdt] at hfp
          simp only [Option.some.injEq] at hfp
          exact ⟨e, hea, by rw [← hfp], by rw [← hfp]⟩

lemma fetch_ok_inversion (env : FetchEnv) (authority : Address) (reg : Registry)
    (h : Registry.fetch env authority = some (Except.ok reg)) :
    ∃ d ra accs,
      env.get_account (env.deriveRegistryAddress authority) = Except.ok d
      ∧ env.decodeRegistry d = Except.ok ra
      ∧ env.get_multiple_accounts
          ((ra.tables.filter (fun e => 1 < e.discriminator)).map RegistryEntry.table)
          = Except.ok accs
      ∧ reg = ⟨authority, ra.version,
          buildTables env accs (ra.tables.filter (fun e => 1 < e.discriminator))⟩ := by
  simp only [Registry.fetch] at h
  cases hga : env.get_account (env.deriveRegistryAddress authority) with
  | error e =>
      rw [hga] at h
      simp only at h
      split_ifs at h <;> simp at h
  | ok d =>
      rw [hga] at h
      simp only at h
      cases hdr : env.decodeRegistry d with
      | error u => rw [hdr] at h; simp at h
      | ok ra =>
          rw [hdr] at h
          simp only at h
          cases hgm : env.get_multiple_accounts
              ((ra.tables.filter (fun e => 1 < e.discriminator)).map RegistryEntry.table) with
          | error e2 => rw [hgm] at h; simp at h
          | ok accs =>
              rw [hgm] at h
              simp only [Option.some.injEq, Except.ok.injEq] at h
              exact ⟨d, ra, accs, rfl, hdr, hgm, h.symm⟩

lemma fetch_ok_of_reads (env : FetchEnv) (authority : Address)
    (d : AccountData) (ra : RegistryAccount) (accs : List (Option AccountData))
    (h1 : env.get_account (env.deriveRegistryAddress authority) = Except.ok d)
    (h2 : env.decodeRegistry d = Except.ok ra)
    (h3 : env.get_multiple_accounts
        ((ra.tables.filter (fun e => 1 < e.discriminator)).map RegistryEntry.table)
        = Except.ok accs) :
    Registry.fetch env authority
      = some (Except.ok ⟨authority, ra.version,
          buildTables env accs (ra.tables.filter (fun e => 1 < e.discriminator))⟩) := by
  simp only [Registry.fetch, h1, h2, h3]

lemma find_addresses_def (cache : Cache) (now : Nat)
    (instructions : List Instruction) (authorities : List Address) :
    find_addresses cache now instructions authorities
      = ⟨(authorities.foldl (processAuthority cache now) (collectAccounts instructions, [])).2,
         (collectAccounts instructions).card,
         (authorities.foldl (processAuthority cache now) (collectAccounts instructions, [])).1.card⟩ :=
  rfl

/-! ### Claims -/

/-- Claim C1: in `find_addresses`, a scanned table is selected if and only
if the intersection of its member-address set with the current working set
has more than one element; on selection its `lookup_address` is appended to
the matches and every intersecting address is removed from the working set,
and otherwise (0 or 1 overlapping addresses) the working set and the
matches are left unchanged, so such a table never contributes to the
matches. -/
theorem c1_selection_rule (accounts : Finset Address) (matched : List Address) (table : Entry) :
    processTable accounts matched table
      = if 1 < (accounts ∩ table.addresses.toFinset).card then
          (accounts \ table.addresses.toFinset, matched ++ [table.lookup_address])
        else
          (accounts, matched) := by
  simp only [processTable, tableIntersection_eq_inter, Finset.sdiff_inter_self_left]

/-- Claim C2: `update_registries` returns exactly the authorities whose
fetch failed, in input order; a failing authority's cache slot is left
untouched, and each successfully fetched authority ends with a fresh entry
carrying the fetched registry, the refresh timestamp and the 3600-second
TTL. -/
theorem c2_refresh_failures (fetchFn : Address → Except LookupRegistryError Registry)
    (now : Nat) (cache : Cache) (authorities : List Address) :
    (update_registries fetchFn now cache authorities).2
        = authorities.filter (fun a => !fetchOk (fetchFn a))
      ∧ (∀ a, fetchOk (fetchFn a) = false →
          (update_registries fetchFn now cache authorities).1 a = cache a)
      ∧ (∀ a ∈ authorities, ∀ reg, fetchFn a = Except.ok reg →
          (update_registries fetchFn now cache authorities).1 a
            = some ⟨reg, now, cacheTTL⟩) :=
  ⟨update_registries_errors fetchFn now cache authorities,
   fun a h => update_registries_fst_of_failed fetchFn now cache authorities a h,
   fun a ha reg h => update_registries_fst_of_ok fetchFn now cache authorities a reg ha h⟩

theorem c2_refresh_failures_witness :
    (update_registries fetchFixture 5 cacheFixture [0, 1]).2 = [1]
      ∧ (update_registries fetchFixture 5 cacheFixture [0, 1]).1 1 = cacheFixture 1
      ∧ (update_registries fetchFixture 5 cacheFixture [0, 1]).1 0 = some ⟨regA, 5, cacheTTL⟩ :=
  ⟨((c2_refresh_failures fetchFixture 5 cacheFixture [0, 1]).1).trans (by decide),
   (c2_refresh_failures fetchFixture 5 cacheFixture [0, 1]).2.1 1 rfl,
   (c2_refresh_failures fetchFixture 5 cacheFixture [0, 1]).2.2 0 (by decide) regA rfl⟩

/-- Claim C3: `find_addresses` always satisfies `unmatched ≤ distinct`,
with equality whenever no supplied authority has a usable (present,
unexpired) registry in the cache. -/
theorem c3_monotonic_shrink (cache : Cache) (now : Nat)
    (instructions : List Instruction) (authorities : List Address) :
    (find_addresses cache now instructions authorities).unmatched
        ≤ (find_addresses cache now instructions authorities).distinct
      ∧ ((∀ a ∈ authorities, cacheGet cache now a = none) →
          (find_addresses cache now instructions authorities).unmatched
            = (find_addresses cache now instructions authorities).distinct) := by
  rw [find_addresses_def]
  dsimp only
  constructor
  · have h := foldAuthorities_measure cache now authorities (collectAccounts instructions, [])
    dsimp only [List.length_nil] at h
    omega
  · intro hmiss
    rw [foldAuthorities_id cache now authorities (collectAccounts instructions, []) hmiss]

theorem c3_monotonic_shrink_witness :
    (find_addresses cacheFixture 10 instrsFixture [1]).unmatched
      = (find_addresses cacheFixture 10 instrsFixture [1]).distinct :=
  (c3_monotonic_shrink cacheFixture 10 instrsFixture [1]).2 (by decide)

/-- Claim C5: the initial working set of `find_addresses` contains exactly
the addresses appearing as some instruction's program id or among some
instruction's referenced accounts (duplicates collapsed), and the result's
`distinct` field is the cardinality of that set before any reduction. -/
theorem c5_initial_working_set (cache : Cache) (now : Nat)
    (instructions : List Instruction) (authorities : List Address) :
    (∀ a, a ∈ collectAccounts instructions ↔
        ∃ ix ∈ instructions, a = ix.program_id ∨ ∃ meta ∈ ix.accounts, a = meta.pubkey)
      ∧ (find_addresses cache now instructions authorities).distinct
          = (collectAccounts instructions).card :=
  ⟨fun a => mem_collectAccounts instructions a, by rw [find_addresses_def]⟩

/-- Claim C9: the two intersection branches of `find_addresses` (iterate
the table's list when it is smaller, iterate the working set otherwise)
compute the same set, namely the working set intersected with the table's
deduplicated member set, so the branch choice and duplicates inside the
table never change the selection outcome. -/
theorem c9_intersection_branches (table : Entry) (accounts : Finset Address)
    (matched : List Address) :
    (table.addresses.filter (fun a => a ∈ accounts)).toFinset
        = accounts.filter (fun a => a ∈ table.addresses)
      ∧ tableIntersection table accounts = accounts ∩ table.addresses.toFinset
      ∧ tableIntersection ⟨table.discriminator, table.lookup_address, table.addresses.dedup⟩
          accounts = tableIntersection table accounts
      ∧ processTable accounts matched
          ⟨table.discriminator, table.lookup_address, table.addresses.dedup⟩
          = processTable accounts matched table := by
  have hdedup : tableIntersection
      ⟨table.discriminator, table.lookup_address, table.addresses.dedup⟩ accounts
      = tableIntersection table accounts := by
    rw [tableIntersection_eq_inter, tableIntersection_eq_inter]
    have : (table.addresses.dedup).toFinset = table.addresses.toFinset := by
      ext a
      simp [List.mem_dedup]
    exact by rw [this]
  refine ⟨?_, tableIntersection_eq_inter table accounts, hdedup, ?_⟩
  · ext a
    simp [List.mem_filter]
    tauto
  · simp only [processTable, hdedup]

/-- Claim C10: every selected table removes at least two distinct addresses
from the working set, so `unmatched + 2 · |matches| ≤ distinct` for every
invocation of `find_addresses`. -/
theorem c10_selection_cost_bound (cache : Cache) (now : Nat)
    (instructions : List Instruction) (authorities : List Address) :
    (find_addresses cache now instructions authorities).unmatched
        + 2 * (find_addresses cache now instructions authorities).matched.length
      ≤ (find_addresses cache now instructions authorities).distinct := by
  rw [find_addresses_def]
  dsimp only
  have h := foldAuthorities_measure cache now authorities (collectAccounts instructions, [])
  dsimp only [List.length_nil] at h
  omega

/-- Claim C7: `find_addresses` is deterministic.  Any two duplicate-free
enumerations of the instruction-derived working set (the only
implementation-ordered data, coming from the `HashSet`) produce the same
`FindAddressesResult` — the same matches in the same order, the same
`distinct` and the same `unmatched` — and that result is the one computed
by the order-free model. -/
theorem c7_deterministic (cache : Cache) (now : Nat)
    (instructions : List Instruction) (authorities : List Address)
    (l1 l2 : List Address) (h1 : l1.Nodup) (h2 : l2.Nodup)
    (e1 : l1.toFinset = collectAccounts instructions)
    (e2 : l2.toFinset = collectAccounts instructions) :
    findAddressesOrd cache now l1 authorities = findAddressesOrd cache now l2 authorities
      ∧ findAddressesOrd cache now l1 authorities
          = find_addresses cache now instructions authorities := by
  have r1 := findAddressesOrd_eq cache now instructions authorities l1 h1 e1
  have r2 := findAddressesOrd_eq cache now instructions authorities l2 h2 e2
  exact ⟨r1.trans r2.symm, r1⟩

theorem c7_deterministic_witness :
    findAddressesOrd cacheFixture 10 [1, 2] [0] = findAddressesOrd cacheFixture 10 [2, 1] [0] :=
  (c7_deterministic cacheFixture 10 instrsFixture [0] [1, 2] [2, 1]
    (by decide) (by decide) (by decide) (by decide)).1

/-- Claim C8: after a refresh in which authority `a` was fetched
successfully at time `t0`, a cache lookup strictly before `t0 + 3600`
returns the stored registry, and a lookup once the 3600-second TTL has
elapsed reports absence, never the stale value. -/
theorem c8_ttl_expiry (fetchFn : Address → Except LookupRegistryError Registry)
    (t0 : Nat) (cache : Cache) (authorities : List Address)
    (a : Address) (reg : Registry) (now : Nat)
    (ha : a ∈ authorities) (hf : fetchFn a = Except.ok reg) :
    (t0 + cacheTTL ≤ now →
        cacheGet (update_registries fetchFn t0 cache authorities).1 now a = none)
      ∧ (now < t0 + cacheTTL →
        cacheGet (update_registries fetchFn t0 cache authorities).1 now a = some reg) := by
  have hc := update_registries_fst_of_ok fetchFn t0 cache authorities a reg ha hf
  unfold cacheGet
  rw [hc]
  constructor
  · intro hle
    have hnot : ¬ (now < t0 + cacheTTL) := by omega
    simp [hnot]
  · intro hlt
    simp [hlt]

theorem c8_ttl_expiry_witness :
    cacheGet (update_registries fetchFixture 5 cacheFixture [0]).1 5000 0 = none
      ∧ cacheGet (update_registries fetchFixture 5 cacheFixture [0]).1 100 0 = some regA :=
  ⟨(c8_ttl_expiry fetchFixture 5 cacheFixture [0] 0 regA 5000 (by decide) rfl).1 (by decide),
   (c8_ttl_expiry fetchFixture 5 cacheFixture [0] 0 regA 100 (by decide) rfl).2 (by decide)⟩

/-- Claim C4 (code bug): with an account reader whose registry account read
and decode succeed but whose batch `get_multiple_accounts` fails,
`Registry::fetch` evaluates to `none`, i.e. the `.unwrap()` panics instead
of reporting the batch-fetch failure through the `Result` return value. -/
theorem c4_fetch_panics_on_batch_error : Registry.fetch envPanic 0 = none := rfl

/-- Claim C6: every registry produced by a successful `Registry::fetch`
contains only table entries whose discriminator is strictly greater than 1
(entries with discriminator ≤ 1 are excluded), and once the three reads
succeed the fetch succeeds regardless of individual table accounts being
missing or undecodable — those entries are silently omitted rather than
raising an error. -/
theorem c6_active_tables_only (env : FetchEnv) (authority : Address) :
    (∀ reg, Registry.fetch env authority = some (Except.ok reg) →
        ∀ t ∈ reg.tables, 1 < t.discriminator)
      ∧ (∀ d ra accs,
          env.get_account (env.deriveRegistryAddress authority) = Except.ok d →
          env.decodeRegistry d = Except.ok ra →
          env.get_multiple_accounts
              ((ra.tables.filter (fun e => 1 < e.discriminator)).map RegistryEntry.table)
            = Except.ok accs →
          Registry.fetch env authority
            = some (Except.ok ⟨authority, ra.version,
                buildTables env accs (ra.tables.filter (fun e => 1 < e.discriminator))⟩)) := by
  constructor
  · intro reg hreg t ht
    obtain ⟨d, ra, accs, hga, hdr, hgm, hreg'⟩ := fetch_ok_inversion env authority reg hreg
    rw [hreg'] at ht
    obtain ⟨e, he, hdisc, _⟩ :=
      mem_buildTables env accs (ra.tables.filter (fun e => 1 < e.discriminator)) t ht
    rw [List.mem_filter] at he
    rw [hdisc]
    simpa using he.2
  · intro d ra accs h1 h2 h3
    exact fetch_ok_of_reads env authority d ra accs h1 h2 h3

theorem c6_active_tables_only_witness :
    Registry.fetch envMixed 0 = some (Except.ok ⟨0, 1, [⟨2, 11, [4, 5]⟩]⟩) :=
  ((c6_active_tables_only envMixed 0).2 0 ⟨1, [⟨0, 10⟩, ⟨2, 11⟩, ⟨3, 12⟩]⟩
    [some 1, none] rfl rfl rfl).trans rfl
